import Mathlib

/-!
# Verification of the RP2040 ADC calibrator core

Shallow embedding of the calibration engine of the RP2040 ADC calibrator:
the PIO sigma-delta DAC modulator, the histogram collector, the correction
LUT builder, the boundary smoother, and the binary calibration record
(save/load).  Machine integers are modelled as `Nat`/`Int` with explicit
reduction modulo `2^w` where the C code wraps; the C `double` computations
of the LUT builder are modelled with exact rationals (on the concrete
inputs considered here every intermediate `double` value is exactly
representable, so the models agree with the C arithmetic).
-/

set_option maxRecDepth 10000

/-! ## Sigma-delta DAC modulator

Embeds `dac_set_level` and `dac_feed_one`.  The C code keeps a 32-bit
accumulator `sd_accumulator`; each generated word comes from 32 additions
of the target to the accumulator, emitting a 1 exactly at the additions
that wrap past `2^32` (detected in C by `acc < old_acc`).
-/

/-- `2^32`, the modulus of the C `uint32_t` accumulator arithmetic. -/
def UINT32_MOD : ℕ := 4294967296

/-- Embeds `dac_set_level`: `sd_target = ((uint32_t)(level_12bit & 0xFFF)) << 20`. -/
def dac_set_level (level_12bit : ℕ) : ℕ := (level_12bit % 4096) * 2 ^ 20

/-- One iteration of the 32-step loop in `dac_feed_one`: state is
`(word, acc)`; `acc += target` wraps mod `2^32` and the wrap sets bit `i`
of the word (`word |= 1u << i`). -/
def sdStep (target : ℕ) (s : ℕ × ℕ) (i : ℕ) : ℕ × ℕ :=
  let acc' := (s.2 + target) % UINT32_MOD
  (if acc' < s.2 then s.1 ||| 2 ^ i else s.1, acc')

/-- The word-generation body of `dac_feed_one` (the path taken when the TX
FIFO is not full): produces the 32-bit word and the updated accumulator. -/
def dac_feed_word (target acc : ℕ) : ℕ × ℕ :=
  (List.range 32).foldl (sdStep target) (0, acc)

/-- Embeds `dac_feed_one`: returns `none` (C `false`) when the FIFO is
full, leaving the accumulator untouched, else the generated word and the
new accumulator. -/
def dac_feed_one (fifoFull : Bool) (target acc : ℕ) : Option (ℕ × ℕ) :=
  if fifoFull then none else some (dac_feed_word target acc)

/-- Number of set bits of a natural number. -/
def popcount (n : ℕ) : ℕ :=
  if h : n = 0 then 0 else popcount (n / 2) + n % 2
decreasing_by exact Nat.div_lt_self (Nat.pos_of_ne_zero h) one_lt_two

/-- Feeding `W` consecutive words through the generator: total number of
set bits over the `W` words, and the final accumulator. -/
def dacRun (target : ℕ) : ℕ → ℕ → ℕ × ℕ
  | 0, acc => (0, acc)
  | W + 1, acc =>
    let p := dac_feed_word target acc
    let q := dacRun target W p.2
    (popcount p.1 + q.1, q.2)

theorem popcount_zero : popcount 0 = 0 := by
  rw [popcount]
  simp

theorem popcount_two_mul_add (q : ℕ) (b : ℕ) (hb : b < 2) :
    popcount (2 * q + b) = popcount q + b := by
  rcases Nat.eq_zero_or_pos (2 * q + b) with h | h
  · have hq : q = 0 := by omega
    have hb0 : b = 0 := by omega
    simp [hq, hb0, popcount_zero]
  · rw [popcount]
    have h2 : (2 * q + b) / 2 = q := by omega
    have h3 : (2 * q + b) % 2 = b := by omega
    simp only [h2, h3]
    rw [dif_neg (by omega)]

/-- `w ||| 2^i = w + 2^i` whenever bit `i` is not yet set because `w < 2^i`. -/
theorem lor_two_pow_of_lt : ∀ (i w : ℕ), w < 2 ^ i → w ||| 2 ^ i = w + 2 ^ i := by
  intro i
  induction i with
  | zero =>
    intro w hw
    interval_cases w
    decide
  | succ i ih =>
    intro w hw
    have hdecomp : Nat.bit (Nat.bodd w) (Nat.div2 w) = w := Nat.bit_decomp w
    have hpow : (2 : ℕ) ^ (i + 1) = Nat.bit false (2 ^ i) := by
      simp [Nat.bit_val, Nat.pow_succ, Nat.mul_comm]
    have hdiv : Nat.div2 w < 2 ^ i := by
      have := Nat.bit_val (Nat.bodd w) (Nat.div2 w)
      rw [hdecomp] at this
      rcases Nat.bodd w with _ | _ <;> simp [Bool.toNat] at this <;> omega
    calc w ||| 2 ^ (i + 1)
        = Nat.bit (Nat.bodd w) (Nat.div2 w) ||| Nat.bit false (2 ^ i) := by
          rw [hdecomp, hpow]
      _ = Nat.bit (Nat.bodd w || false) (Nat.div2 w ||| 2 ^ i) := Nat.lor_bit _ _ _ _
      _ = Nat.bit (Nat.bodd w) (Nat.div2 w + 2 ^ i) := by rw [ih _ hdiv, Bool.or_false]
      _ = w + 2 ^ (i + 1) := by
          have hv := Nat.bit_val (Nat.bodd w) (Nat.div2 w)
          rw [hdecomp] at hv
          rw [Nat.bit_val, Nat.pow_succ]
          omega

theorem popcount_add_two_pow (i w : ℕ) (hw : w < 2 ^ i) :
    popcount (w + 2 ^ i) = popcount w + 1 := by
  induction i generalizing w with
  | zero =>
    interval_cases w
    rw [show (0 + 2 ^ 0 : ℕ) = 2 * 0 + 1 by norm_num, popcount_two_mul_add 0 1 (by norm_num)]
  | succ i ih =>
    have hd : w + 2 ^ (i + 1) = 2 * (w / 2 + 2 ^ i) + w % 2 := by
      have := Nat.div_add_mod w 2
      rw [Nat.pow_succ]
      omega
    have hw2 : w / 2 < 2 ^ i := by
      rw [Nat.pow_succ] at hw
      omega
    rw [hd, popcount_two_mul_add _ _ (Nat.mod_lt w (by norm_num)), ih _ hw2]
    have hwd : w = 2 * (w / 2) + w % 2 := by omega
    conv_rhs => rw [hwd]
    rw [popcount_two_mul_add _ _ (Nat.mod_lt w (by norm_num))]
    ring

/-- Loop invariant for the 32-step word generation: after `n` steps the
word has bits only below position `n`, its popcount equals the number of
accumulator wraps, i.e. `(acc + n*t) / 2^32`, and the accumulator holds
`(acc + n*t) % 2^32`. -/
theorem sd_loop_inv (t acc : ℕ) (ht : t < UINT32_MOD) (hacc : acc < UINT32_MOD) (n : ℕ) :
    ((List.range n).foldl (sdStep t) (0, acc)).1 < 2 ^ n ∧
    popcount ((List.range n).foldl (sdStep t) (0, acc)).1 = (acc + n * t) / UINT32_MOD ∧
    ((List.range n).foldl (sdStep t) (0, acc)).2 = (acc + n * t) % UINT32_MOD := by
  have hL : UINT32_MOD = 4294967296 := rfl
  rw [hL] at ht hacc
  induction n with
  | zero =>
    rw [hL]
    refine ⟨by simp, ?_, ?_⟩
    · simp [popcount_zero, Nat.div_eq_of_lt hacc]
    · simp [Nat.mod_eq_of_lt hacc]
  | succ n ih =>
    obtain ⟨hlt, hpc, hac⟩ := ih
    rw [hL] at hpc hac
    rw [List.range_succ, List.foldl_append, hL]
    set s := (List.range n).foldl (sdStep t) (0, acc) with hs
    have hstep : (List.foldl (sdStep t) s [n]) =
        ((if (s.2 + t) % UINT32_MOD < s.2 then s.1 ||| 2 ^ n else s.1),
         (s.2 + t) % UINT32_MOD) := by
      simp [sdStep]
    rw [hstep, hL]
    have hrw : acc + (n + 1) * t = (acc + n * t) + t := by ring
    rw [hrw]
    set x := acc + n * t with hx
    have hs2lt : s.2 < 4294967296 := by omega
    by_cases hov : s.2 + t ≥ 4294967296
    · -- overflow: the addition wraps, bit `n` is emitted
      rw [if_pos (by omega)]
      have hlor : s.1 ||| 2 ^ n = s.1 + 2 ^ n := lor_two_pow_of_lt n s.1 hlt
      refine ⟨by rw [hlor, pow_succ]; omega, ?_, by omega⟩
      rw [hlor, popcount_add_two_pow n s.1 hlt, hpc]
      omega
    · -- no overflow
      rw [if_neg (by omega)]
      refine ⟨by rw [pow_succ]; omega, ?_, by omega⟩
      rw [hpc]
      omega

/-- The set-bit count and final accumulator of one generated word. -/
theorem dac_feed_word_spec (t acc : ℕ) (ht : t < UINT32_MOD) (hacc : acc < UINT32_MOD) :
    popcount (dac_feed_word t acc).1 = (acc + 32 * t) / UINT32_MOD ∧
    (dac_feed_word t acc).2 = (acc + 32 * t) % UINT32_MOD := by
  have h := sd_loop_inv t acc ht hacc 32
  exact ⟨h.2.1, h.2.2⟩

/-- Over `W` consecutive generated words, the total number of set bits is
exactly the number of accumulator wraps of `32*W` additions. -/
theorem dacRun_spec (t : ℕ) (ht : t < UINT32_MOD) :
    ∀ (W acc : ℕ), acc < UINT32_MOD →
      (dacRun t W acc).1 = (acc + 32 * W * t) / UINT32_MOD ∧
      (dacRun t W acc).2 = (acc + 32 * W * t) % UINT32_MOD := by
  have hL : UINT32_MOD = 4294967296 := rfl
  intro W
  induction W with
  | zero =>
    intro acc hacc
    constructor
    · simp [dacRun, Nat.div_eq_of_lt hacc]
    · simp [dacRun, Nat.mod_eq_of_lt hacc]
  | succ W ih =>
    intro acc hacc
    have hw := dac_feed_word_spec t acc ht hacc
    have hacc' : (dac_feed_word t acc).2 < UINT32_MOD := by
      rw [hw.2, hL]
      have : acc + 32 * t ≥ 0 := by omega
      rw [hL] at *
      omega
    have hrun := ih (dac_feed_word t acc).2 hacc'
    have hexp : acc + 32 * (W + 1) * t = (acc + 32 * t) + 32 * W * t := by ring
    rw [hL] at hw hrun ht hacc ⊢
    rw [hexp]
    set a := acc + 32 * t with ha
    set y := 32 * W * t with hy
    constructor
    · show popcount (dac_feed_word t acc).1 + (dacRun t W (dac_feed_word t acc).2).1 = _
      rw [hw.1, hrun.1, hw.2]
      omega
    · show (dacRun t W (dac_feed_word t acc).2).2 = _
      rw [hrun.2, hw.2]
      omega

/-- C3: for every 12-bit target level `T` set via `dac_set_level` and every
word count `W`, the number of set bits across `W` consecutive words
produced by `dac_feed_one` equals `32*W*T/4096` up to a bounded carry
error: `|setbits*4096 - 32*W*T| ≤ 4096`, so the fraction of set bits
converges to `T/4096` within `O(1/W)` for all `T` in `0..4095`. -/
theorem modulator_fidelity (T W acc : ℕ) (hT : T < 4096) (hacc : acc < UINT32_MOD) :
    (dacRun (dac_set_level T) W acc).1 * 4096 ≤ 32 * W * T + 4096 ∧
    32 * W * T ≤ (dacRun (dac_set_level T) W acc).1 * 4096 + 4095 := by
  have ht : dac_set_level T < UINT32_MOD := by
    show T % 4096 * 2 ^ 20 < UINT32_MOD
    have : T % 4096 < 4096 := Nat.mod_lt _ (by norm_num)
    show T % 4096 * 2 ^ 20 < 4294967296
    omega
  have hspec := (dacRun_spec (dac_set_level T) ht W acc hacc).1
  have htgt : dac_set_level T = T * 1048576 := by
    show T % 4096 * 2 ^ 20 = T * 1048576
    rw [Nat.mod_eq_of_lt hT]
    norm_num
  rw [htgt] at hspec
  have hexp : acc + 32 * W * (T * 1048576) = acc + (W * T) * 33554432 := by ring
  rw [hexp] at hspec
  have hwt : 32 * W * T = 32 * (W * T) := by ring
  rw [hwt]
  have hLacc : acc < 4294967296 := hacc
  set P := W * T with hP
  have hb : (dacRun (T * 1048576) W acc).1 = (acc + P * 33554432) / 4294967296 := hspec
  rw [htgt, hb]
  omega

/-- Witness for C3 at `T = 1`, `W = 1`, `acc = 0`. -/
theorem modulator_fidelity_witness :
    (dacRun (dac_set_level 1) 1 0).1 * 4096 ≤ 32 * 1 * 1 + 4096 ∧
    32 * 1 * 1 ≤ (dacRun (dac_set_level 1) 1 0).1 * 4096 + 4095 :=
  modulator_fidelity 1 1 0 (by decide) (by decide)

/-! ## Correction LUT builder

Embeds `build_correction_lut` (part_001 lines 197-251).  The C `double`
arithmetic (cumulative half-bin sums, `expected_per_code`, `ideal_code`,
`round`) is modelled with exact rationals; `round` is C `round`, i.e.
rounding half away from zero; the `(int16_t)` casts reduce into the signed
16-bit range.  The while-loop range trim is modelled with an explicit fuel
equal to the loop bound (4095 iterations at most), which the loops never
exceed. -/

/-- The calibration record held in the C global `cal_data`: magic word,
4096-entry signed 16-bit correction table (as a function on codes),
and the observed ADC range. -/
structure CalibrationData where
  magic : ℕ
  correction : ℕ → ℤ
  adc_min : ℕ
  adc_max : ℕ

/-- Reduction of an integer into the `int16_t` range, two's complement. -/
def toInt16 (z : ℤ) : ℤ := (z + 32768) % 65536 - 32768

/-- C `round`: round half away from zero. -/
def roundC (q : ℚ) : ℤ := if q < 0 then -⌊-q + 1 / 2⌋ else ⌊q + 1 / 2⌋

/-- The trim loop `while (code_min < 4095 && histogram[code_min] == 0) code_min++`.
The fuel is the loop bound; starting from 0 it never runs out. -/
def codeMinAux (hist : ℕ → ℕ) : ℕ → ℕ → ℕ
  | 0, c => c
  | fuel + 1, c => if c < 4095 ∧ hist c = 0 then codeMinAux hist fuel (c + 1) else c

/-- The trimmed low end of the histogram (`code_min`). -/
def code_min (hist : ℕ → ℕ) : ℕ := codeMinAux hist 4095 0

/-- The trim loop `while (code_max > 0 && histogram[code_max] == 0) code_max--`. -/
def codeMaxAux (hist : ℕ → ℕ) : ℕ → ℕ → ℕ
  | 0, c => c
  | fuel + 1, c => if 0 < c ∧ hist c = 0 then codeMaxAux hist fuel (c - 1) else c

/-- The trimmed high end of the histogram (`code_max`). -/
def code_max (hist : ℕ → ℕ) : ℕ := codeMaxAux hist 4095 4095

/-- State of the LUT-building loop: the correction table written so far
and the running cumulative count (a C `double`, modelled exactly). -/
structure BuildState where
  corr : ℕ → ℤ
  cum : ℚ

/-- One iteration of the main loop of `build_correction_lut` at code `i`:
codes below `code_min` get 0, codes above `code_max` copy the entry at
`code_max`, codes in range get `round(ideal_code) - i` from the half-bin
cumulative distribution. -/
def buildStep (hist : ℕ → ℕ) (cmin cmax : ℕ) (expected : ℚ) (st : BuildState) (i : ℕ) :
    BuildState :=
  if i < cmin then
    { st with corr := Function.update st.corr i 0 }
  else if cmax < i then
    { st with corr := Function.update st.corr i (st.corr cmax) }
  else
    let cum1 := st.cum + (hist i : ℚ) / 2
    let ideal : ℚ := (cmin : ℚ) + cum1 / expected
    let v := toInt16 (toInt16 (roundC ideal) - i)
    { corr := Function.update st.corr i v, cum := cum1 + (hist i : ℚ) / 2 }

/-- `total_samples`: the sum of histogram counts inside the trimmed range. -/
def total_samples (hist : ℕ → ℕ) : ℕ := ∑ i ∈ Finset.Icc (code_min hist) (code_max hist), hist i

/-- `expected_per_code = (double)total_samples / (code_max - code_min + 1)`;
the denominator is C `int` arithmetic and may be negative (empty histogram). -/
def expected_per_code (hist : ℕ → ℕ) : ℚ :=
  (total_samples hist : ℚ) / (((code_max hist : ℤ) - (code_min hist : ℤ) + 1 : ℤ) : ℚ)

/-- Embeds `build_correction_lut`: trims the code range, computes
`expected_per_code`, walks all 4096 codes deriving the correction, and
marks the record valid by setting the magic. `prior` is the correction
table already in `cal_data` when the function is entered. -/
def build_correction_lut (hist : ℕ → ℕ) (prior : ℕ → ℤ) : CalibrationData :=
  { magic := 0xCA11B8ED
    correction := ((List.range 4096).foldl
      (buildStep hist (code_min hist) (code_max hist) (expected_per_code hist))
      ⟨prior, 0⟩).corr
    adc_min := code_min hist
    adc_max := code_max hist }

theorem build_correction_lut_correction (hist : ℕ → ℕ) (prior : ℕ → ℤ) :
    (build_correction_lut hist prior).correction =
    ((List.range 4096).foldl
      (buildStep hist (code_min hist) (code_max hist) (expected_per_code hist))
      ⟨prior, 0⟩).corr := rfl

theorem build_correction_lut_adc_min (hist : ℕ → ℕ) (prior : ℕ → ℤ) :
    (build_correction_lut hist prior).adc_min = code_min hist := rfl

theorem build_correction_lut_adc_max (hist : ℕ → ℕ) (prior : ℕ → ℤ) :
    (build_correction_lut hist prior).adc_max = code_max hist := rfl

theorem build_correction_lut_magic (hist : ℕ → ℕ) (prior : ℕ → ℤ) :
    (build_correction_lut hist prior).magic = 0xCA11B8ED := rfl

/-! ### Builder loop machinery -/

/-- A build step writes only its own index. -/
theorem buildStep_corr_ne (hist : ℕ → ℕ) (cmin cmax : ℕ) (e : ℚ) (st : BuildState)
    (i j : ℕ) (h : j ≠ i) :
    (buildStep hist cmin cmax e st i).corr j = st.corr j := by
  unfold buildStep
  split
  · simp [Function.update_noteq h]
  · split
    · simp [Function.update_noteq h]
    · simp [Function.update_noteq h]

/-- Folding build steps over indices all different from `j` leaves entry `j`
untouched. -/
theorem foldl_buildStep_ne (hist : ℕ → ℕ) (cmin cmax : ℕ) (e : ℚ) (j : ℕ) :
    ∀ (L : List ℕ) (st : BuildState), (∀ i ∈ L, i ≠ j) →
      ((L.foldl (buildStep hist cmin cmax e) st).corr j = st.corr j)
  | [], st, _ => rfl
  | i :: L, st, h => by
    rw [List.foldl_cons]
    rw [foldl_buildStep_ne hist cmin cmax e j L _ (fun k hk => h k (List.mem_cons_of_mem _ hk))]
    exact buildStep_corr_ne hist cmin cmax e st i j
      (fun hji => (h i (List.mem_cons_self _ _)) hji.symm)

/-- Splitting the fold over `range n` at position `j < n`. -/
theorem foldl_range_split (f : BuildState → ℕ → BuildState) (st : BuildState)
    (j n : ℕ) (hj : j < n) :
    (List.range n).foldl f st =
      (List.range' (j + 1) (n - (j + 1))).foldl f (f ((List.range j).foldl f st) j) := by
  rw [List.range_eq_range', show n = (n - (j + 1)) + (j + 1) by omega,
    ← List.range'_append_1 0 (j + 1) (n - (j + 1))]
  simp only [Nat.zero_add, List.foldl_append]
  rw [List.range'_1_concat, List.foldl_append]
  simp [List.range_eq_range']

/-- The table entry at `j` after folding `range k` steps is stable under
folding further steps (`j < k ≤ n`): later steps write only their own,
larger, indices. -/
theorem foldl_range_corr_stable (hist : ℕ → ℕ) (cmin cmax : ℕ) (e : ℚ) (st0 : BuildState)
    (j k n : ℕ) (hjk : j < k) (hkn : k ≤ n) :
    ((List.range k).foldl (buildStep hist cmin cmax e) st0).corr j =
    ((List.range n).foldl (buildStep hist cmin cmax e) st0).corr j := by
  have hmem : ∀ m, ∀ i ∈ List.range' (j + 1) m, i ≠ j := by
    intro m i hi
    obtain ⟨v, _, rfl⟩ := List.mem_range'.1 hi
    omega
  rw [foldl_range_split _ st0 j k hjk, foldl_range_split _ st0 j n (by omega),
    foldl_buildStep_ne hist cmin cmax e j _ _ (hmem _),
    foldl_buildStep_ne hist cmin cmax e j _ _ (hmem _)]

/-- The final table entry at `j < n` is the value written by the step at `j`,
evaluated in the state reached after the first `j` steps. -/
theorem foldl_range_corr_eq_step (hist : ℕ → ℕ) (cmin cmax : ℕ) (e : ℚ) (st0 : BuildState)
    (j n : ℕ) (hj : j < n) :
    ((List.range n).foldl (buildStep hist cmin cmax e) st0).corr j =
    (buildStep hist cmin cmax e ((List.range j).foldl (buildStep hist cmin cmax e) st0) j).corr j := by
  have hmem : ∀ i ∈ List.range' (j + 1) (n - (j + 1)), i ≠ j := by
    intro i hi
    obtain ⟨v, _, rfl⟩ := List.mem_range'.1 hi
    omega
  rw [foldl_range_split _ st0 j n hj, foldl_buildStep_ne hist cmin cmax e j _ _ hmem]

/-- `code_min` never exceeds start plus fuel. -/
theorem codeMinAux_le (hist : ℕ → ℕ) : ∀ (fuel c : ℕ), codeMinAux hist fuel c ≤ c + fuel
  | 0, c => Nat.le_refl c
  | fuel + 1, c => by
    rw [codeMinAux]
    split
    · exact le_trans (codeMinAux_le hist fuel (c + 1)) (by omega)
    · omega

/-- `code_max` never exceeds its starting point. -/
theorem codeMaxAux_le (hist : ℕ → ℕ) : ∀ (fuel c : ℕ), codeMaxAux hist fuel c ≤ c
  | 0, c => Nat.le_refl c
  | fuel + 1, c => by
    rw [codeMaxAux]
    split
    · exact le_trans (codeMaxAux_le hist fuel (c - 1)) (by omega)
    · omega

theorem code_min_le (hist : ℕ → ℕ) : code_min hist ≤ 4095 := codeMinAux_le hist 4095 0

theorem code_max_le (hist : ℕ → ℕ) : code_max hist ≤ 4095 := codeMaxAux_le hist 4095 4095

/-- Any final table entry below `code_min` is 0 (shared helper). -/
theorem build_corr_below (hist : ℕ → ℕ) (prior : ℕ → ℤ) (j : ℕ) (hj : j < code_min hist) :
    (build_correction_lut hist prior).correction j = 0 := by
  have hj4 : j < 4096 := by
    have := code_min_le hist
    omega
  rw [build_correction_lut_correction,
    foldl_range_corr_eq_step hist (code_min hist) (code_max hist) (expected_per_code hist)
      ⟨prior, 0⟩ j 4096 hj4]
  rw [buildStep, if_pos hj]
  exact Function.update_same _ _ _

/-- Any final table entry strictly above `code_max` (and below 4096) equals
the final entry at `code_max` (shared helper). -/
theorem build_corr_above (hist : ℕ → ℕ) (prior : ℕ → ℤ) (j : ℕ)
    (hj : code_max hist < j) (hj4 : j < 4096) :
    (build_correction_lut hist prior).correction j =
    (build_correction_lut hist prior).correction (code_max hist) := by
  by_cases hmin : j < code_min hist
  · -- degenerate all-zero-histogram geometry: both entries were written 0
    rw [build_corr_below hist prior j hmin,
      build_corr_below hist prior (code_max hist) (by omega)]
  · push_neg at hmin
    rw [build_correction_lut_correction,
      foldl_range_corr_eq_step hist (code_min hist) (code_max hist) (expected_per_code hist)
        ⟨prior, 0⟩ j 4096 hj4]
    rw [buildStep, if_neg (by omega), if_pos hj]
    exact Eq.trans (Function.update_same _ _ _)
      (foldl_range_corr_stable hist (code_min hist) (code_max hist) (expected_per_code hist)
        ⟨prior, 0⟩ (code_max hist) j 4096 hj (by omega))

/-- C6: after `build_correction_lut`, `correction[code] = 0` for every code
strictly below `code_min` and `correction[code] = correction[code_max]`
for every code strictly above `code_max`. -/
theorem edge_corrections (hist : ℕ → ℕ) (prior : ℕ → ℤ) (code : ℕ) :
    (code < (build_correction_lut hist prior).adc_min →
      (build_correction_lut hist prior).correction code = 0) ∧
    ((build_correction_lut hist prior).adc_max < code → code < 4096 →
      (build_correction_lut hist prior).correction code =
      (build_correction_lut hist prior).correction
        ((build_correction_lut hist prior).adc_max)) := by
  rw [build_correction_lut_adc_min, build_correction_lut_adc_max]
  exact ⟨fun h => build_corr_below hist prior code h,
    fun h h4 => build_corr_above hist prior code h h4⟩

/-- Test histogram with all observation mass in codes 2000..2010. -/
def histBand (i : ℕ) : ℕ := if 2000 ≤ i ∧ i ≤ 2010 then 5 else 0

/-- If codes `c ≤ i < a` all have zero count and `hist a ≠ 0`, the low trim
loop stops exactly at `a`. -/
theorem codeMinAux_eq (hist : ℕ → ℕ) (a : ℕ) (ha : hist a ≠ 0) :
    ∀ (fuel c : ℕ), c ≤ a → a ≤ 4095 → (∀ i, c ≤ i → i < a → hist i = 0) →
      a - c ≤ fuel → codeMinAux hist fuel c = a
  | 0, c => by
    intro hca _ _ hf
    have hc : c = a := by omega
    subst hc
    rfl
  | fuel + 1, c => by
    intro hca ha4 hzero hf
    rw [codeMinAux]
    by_cases hc : c = a
    · subst hc
      rw [if_neg (fun hcontra => ha hcontra.2)]
    · have hlt : c < a := by omega
      rw [if_pos ⟨by omega, hzero c le_rfl hlt⟩]
      exact codeMinAux_eq hist a ha fuel (c + 1) (by omega) ha4
        (fun i hi1 hi2 => hzero i (by omega) hi2) (by omega)

/-- If codes `b < i ≤ c` all have zero count and `hist b ≠ 0`, the high trim
loop stops exactly at `b`. -/
theorem codeMaxAux_eq (hist : ℕ → ℕ) (b : ℕ) (hb : hist b ≠ 0) :
    ∀ (fuel c : ℕ), b ≤ c → (∀ i, b < i → i ≤ c → hist i = 0) →
      c - b ≤ fuel → codeMaxAux hist fuel c = b
  | 0, c => by
    intro hbc _ hf
    have hc : c = b := by omega
    subst hc
    rfl
  | fuel + 1, c => by
    intro hbc hzero hf
    rw [codeMaxAux]
    by_cases hc : c = b
    · subst hc
      rw [if_neg (fun hcontra => hb hcontra.2)]
    · have hlt : b < c := by omega
      rw [if_pos ⟨by omega, hzero c hlt le_rfl⟩]
      exact codeMaxAux_eq hist b hb fuel (c - 1) (by omega)
        (fun i hi1 hi2 => hzero i hi1 (by omega)) (by omega)

/-- C5: if the histogram is zero outside `[a, b]` and nonzero at both `a`
and `b`, then `build_correction_lut` reports exactly `adc_min = a` and
`adc_max = b`. -/
theorem range_trimming (hist : ℕ → ℕ) (prior : ℕ → ℤ) (a b : ℕ)
    (hab : a ≤ b) (hb4 : b ≤ 4095) (hha : hist a ≠ 0) (hhb : hist b ≠ 0)
    (hout : ∀ i, i < 4096 → (i < a ∨ b < i) → hist i = 0) :
    (build_correction_lut hist prior).adc_min = a ∧
    (build_correction_lut hist prior).adc_max = b := by
  constructor
  · exact codeMinAux_eq hist a hha 4095 0 (by omega) (by omega)
      (fun i _ hia => hout i (by omega) (Or.inl hia)) (by omega)
  · exact codeMaxAux_eq hist b hhb 4095 4095 (by omega)
      (fun i hbi hi5 => hout i (by omega) (Or.inr hbi)) (by omega)

/-- The low trim of `histBand` stops exactly at 2000. -/
theorem code_min_histBand : code_min histBand = 2000 :=
  codeMinAux_eq histBand 2000 (by norm_num [histBand]) 4095 0 (by omega) (by omega)
    (fun i _ hi => by rw [histBand, if_neg (by omega)]) (by omega)

/-- The high trim of `histBand` stops exactly at 2010. -/
theorem code_max_histBand : code_max histBand = 2010 :=
  codeMaxAux_eq histBand 2010 (by norm_num [histBand]) 4095 4095 (by omega)
    (fun i hi1 hi2 => by rw [histBand, if_neg (by omega)]) (by omega)

/-- Witness for C6 on `histBand` at codes 100 (below range) and 3000
(above range). -/
theorem edge_corrections_witness :
    (build_correction_lut histBand (fun _ => 0)).correction 100 = 0 ∧
    (build_correction_lut histBand (fun _ => 0)).correction 3000 =
      (build_correction_lut histBand (fun _ => 0)).correction
        ((build_correction_lut histBand (fun _ => 0)).adc_max) :=
  ⟨(edge_corrections histBand (fun _ => 0) 100).1
      (by rw [build_correction_lut_adc_min, code_min_histBand]; norm_num),
   (edge_corrections histBand (fun _ => 0) 3000).2
      (by rw [build_correction_lut_adc_max, code_max_histBand]; norm_num)
      (by norm_num)⟩

/-- Witness for C5 on `histBand` (`a = 2000`, `b = 2010`). -/
theorem range_trimming_witness :
    (build_correction_lut histBand (fun _ => 0)).adc_min = 2000 ∧
    (build_correction_lut histBand (fun _ => 0)).adc_max = 2010 :=
  range_trimming histBand (fun _ => 0) 2000 2010 (by norm_num) (by norm_num)
    (by norm_num [histBand]) (by norm_num [histBand])
    (fun i _ hi => by rw [histBand, if_neg (by omega)])

/-- On an all-zero histogram the low trim loop runs to 4095. -/
theorem codeMinAux_zero (hist : ℕ → ℕ) (hz : ∀ i, i < 4096 → hist i = 0) :
    ∀ (fuel c : ℕ), c ≤ 4095 → 4095 - c ≤ fuel → codeMinAux hist fuel c = 4095
  | 0, c => by
    intro hc hf
    have : c = 4095 := by omega
    subst this
    rfl
  | fuel + 1, c => by
    intro hc hf
    rw [codeMinAux]
    by_cases h45 : c = 4095
    · subst h45
      rw [if_neg (by omega)]
    · rw [if_pos ⟨by omega, hz c (by omega)⟩]
      exact codeMinAux_zero hist hz fuel (c + 1) (by omega) (by omega)

/-- On an all-zero histogram the high trim loop runs down to 0. -/
theorem codeMaxAux_zero (hist : ℕ → ℕ) (hz : ∀ i, i < 4096 → hist i = 0) :
    ∀ (fuel c : ℕ), c ≤ 4095 → c ≤ fuel → codeMaxAux hist fuel c = 0
  | 0, c => by
    intro hc hf
    have : c = 0 := by omega
    subst this
    rfl
  | fuel + 1, c => by
    intro hc hf
    rw [codeMaxAux]
    by_cases h0 : c = 0
    · subst h0
      rw [if_neg (by omega)]
    · rw [if_pos ⟨by omega, hz c (by omega)⟩]
      exact codeMaxAux_zero hist hz fuel (c - 1) (by omega) (by omega)

/-- C10: on an all-zero histogram `build_correction_lut` still terminates:
the trim yields the inverted range `adc_min = 4095`, `adc_max = 0`, every
correction entry is 0, and the magic is still set to mark the record
valid. -/
theorem empty_histogram_build (hist : ℕ → ℕ) (prior : ℕ → ℤ) (code : ℕ)
    (hz : ∀ i, i < 4096 → hist i = 0) (hc : code < 4096) :
    (build_correction_lut hist prior).adc_min = 4095 ∧
    (build_correction_lut hist prior).adc_max = 0 ∧
    (build_correction_lut hist prior).correction code = 0 ∧
    (build_correction_lut hist prior).magic = 0xCA11B8ED := by
  have hmin : code_min hist = 4095 := codeMinAux_zero hist hz 4095 0 (by omega) (by omega)
  have hmax : code_max hist = 0 := codeMaxAux_zero hist hz 4095 4095 (by omega) (by omega)
  refine ⟨by rw [build_correction_lut_adc_min, hmin],
    by rw [build_correction_lut_adc_max, hmax], ?_, build_correction_lut_magic hist prior⟩
  by_cases h45 : code < 4095
  · exact build_corr_below hist prior code (by omega)
  · have hcode : code = 4095 := by omega
    subst hcode
    rw [build_corr_above hist prior 4095 (by omega) (by norm_num), hmax]
    exact build_corr_below hist prior 0 (by omega)

/-- Witness for C10 on the literally-zero histogram at code 7. -/
theorem empty_histogram_build_witness :
    (build_correction_lut (fun _ => 0) (fun _ => 3)).adc_min = 4095 ∧
    (build_correction_lut (fun _ => 0) (fun _ => 3)).adc_max = 0 ∧
    (build_correction_lut (fun _ => 0) (fun _ => 3)).correction 7 = 0 ∧
    (build_correction_lut (fun _ => 0) (fun _ => 3)).magic = 0xCA11B8ED :=
  empty_histogram_build (fun _ => 0) (fun _ => 3) 7 (fun _ _ => rfl) (by norm_num)

/-- The uniform histogram of the C1 scenario: every code count is 100. -/
def histUniform : ℕ → ℕ := fun _ => 100

theorem code_min_histUniform : code_min histUniform = 0 :=
  codeMinAux_eq histUniform 0 (by norm_num [histUniform]) 4095 0 (by omega) (by omega)
    (fun i _ hi => by omega) (by omega)

theorem code_max_histUniform : code_max histUniform = 4095 :=
  codeMaxAux_eq histUniform 4095 (by norm_num [histUniform]) 4095 4095 (by omega)
    (fun i hi1 hi2 => by omega) (by omega)

theorem total_samples_histUniform : total_samples histUniform = 409600 := by
  rw [total_samples, code_min_histUniform, code_max_histUniform]
  simp [histUniform, Finset.sum_const, Nat.card_Icc]

theorem expected_per_code_histUniform : expected_per_code histUniform = 100 := by
  rw [expected_per_code, total_samples_histUniform, code_min_histUniform, code_max_histUniform]
  norm_num

/-- Invariant of the builder loop on the uniform histogram: after `k` steps
the cumulative count is `100 k` (each step adds two halves of 100). -/
theorem uniform_cum (prior : ℕ → ℤ) : ∀ k, k ≤ 4096 →
    ((List.range k).foldl (buildStep histUniform 0 4095 100) ⟨prior, 0⟩).cum = (100 * k : ℚ) := by
  intro k
  induction k with
  | zero => simp
  | succ k ih =>
    intro hk
    rw [List.range_succ, List.foldl_append]
    set st := (List.range k).foldl (buildStep histUniform 0 4095 100) ⟨prior, 0⟩ with hst
    have hcum : st.cum = (100 * k : ℚ) := ih (by omega)
    show (buildStep histUniform 0 4095 100 st k).cum = _
    rw [buildStep, if_neg (by omega), if_neg (by omega)]
    show st.cum + ((histUniform k : ℚ)) / 2 + ((histUniform k : ℚ)) / 2 = (100 * (k + 1 : ℕ) : ℚ)
    have h100 : ((histUniform k : ℕ) : ℚ) = 100 := by norm_num [histUniform]
    rw [h100, hcum]
    push_cast
    ring

/-- On the uniform histogram every written correction entry is exactly 1:
the half-bin cumulative places `ideal_code` at `i + 0.5`, and C `round`
(half away from zero) rounds that up to `i + 1`. -/
theorem uniform_corr (prior : ℕ → ℤ) (j : ℕ) (hj : j < 4096) :
    (build_correction_lut histUniform prior).correction j = 1 := by
  rw [build_correction_lut_correction, code_min_histUniform, code_max_histUniform,
    expected_per_code_histUniform]
  rw [foldl_range_corr_eq_step histUniform 0 4095 100 ⟨prior, 0⟩ j 4096 hj]
  rw [buildStep, if_neg (by omega), if_neg (by omega)]
  refine Eq.trans (Function.update_same _ _ _) ?_
  have hcum := uniform_cum prior j (by omega)
  rw [hcum]
  have h100 : ((histUniform j : ℕ) : ℚ) = 100 := by norm_num [histUniform]
  rw [h100]
  have hideal : ((0 : ℕ) : ℚ) + (100 * (j : ℚ) + (100 : ℚ) / 2) / 100 = (j : ℚ) + 1 / 2 := by
    push_cast
    ring
  rw [hideal]
  have hround : roundC ((j : ℚ) + 1 / 2) = (j : ℤ) + 1 := by
    rw [roundC, if_neg (not_lt.mpr (by positivity))]
    rw [show (j : ℚ) + 1 / 2 + 1 / 2 = (((j : ℤ) + 1 : ℤ) : ℚ) by push_cast; ring]
    exact Int.floor_intCast _
  rw [hround]
  have hj' : (j : ℤ) < 4096 := by exact_mod_cast hj
  have hj0 : (0 : ℤ) ≤ (j : ℤ) := Int.ofNat_nonneg j
  rw [toInt16, toInt16]
  omega

/-- C1 (counterexample): on the uniform histogram (every count 100,
trimmed range `[0, 4095]`) the code does NOT produce the all-zero
correction the claim demands: at code 0 the produced correction is 1. -/
theorem uniform_histogram_zero_claim_false :
    (build_correction_lut histUniform (fun _ => 0)).correction 0 = 1 ∧
    (build_correction_lut histUniform (fun _ => 0)).correction 0 ≠ 0 := by
  have h := uniform_corr (fun _ => 0) 0 (by norm_num)
  exact ⟨h, by rw [h]; norm_num⟩

/-- C1 (amended): on the uniform histogram the trimmed range is
`[0, 4095]` and every correction entry equals 1 (not 0): the half-bin
cumulative places every `ideal_code` at `i + 0.5`, which C `round`
rounds away from zero to `i + 1`. -/
theorem uniform_histogram_correction (prior : ℕ → ℤ) (code : ℕ) (hc : code < 4096) :
    (build_correction_lut histUniform prior).adc_min = 0 ∧
    (build_correction_lut histUniform prior).adc_max = 4095 ∧
    (build_correction_lut histUniform prior).correction code = 1 :=
  ⟨by rw [build_correction_lut_adc_min, code_min_histUniform],
   by rw [build_correction_lut_adc_max, code_max_histUniform],
   uniform_corr prior code hc⟩

/-- Witness for the amended C1 at code 3. -/
theorem uniform_histogram_correction_witness :
    (build_correction_lut histUniform (fun _ => 0)).adc_min = 0 ∧
    (build_correction_lut histUniform (fun _ => 0)).adc_max = 4095 ∧
    (build_correction_lut histUniform (fun _ => 0)).correction 3 = 1 :=
  uniform_histogram_correction (fun _ => 0) 3 (by norm_num)

/-! ## Histogram collector

Embeds `collect_histogram_sweep` and `collect_histogram` (part_001 lines
151-192).  The ADC is an external device: its readings are modelled as a
stream `r : ℕ → ℕ` indexed by the order in which samples are taken.  The
DAC settling calls do not touch the histogram and are omitted from the
state; a sweep visits 4096 levels (ascending or descending) and takes
`SAMPLES_PER_LEVEL` samples at each, incrementing `histogram[code]` for
each in-range code and silently discarding codes `≥ 4096`. -/

/-- `#define NUM_SWEEPS 4`. -/
def NUM_SWEEPS : ℕ := 4

/-- Modelled from the spec: the source line `#define SAMPLES_PER_LEVEL c`
expands to an identifier that is defined nowhere in the repository, so the
numeric value is missing from the source; the spec gives the default of
128 samples per level. -/
def SAMPLES_PER_LEVEL : ℕ := 128

/-- The inner sample loop at one level: take `n` samples from the stream,
incrementing the in-range histogram cells; returns the histogram and the
next stream index. -/
def sampleLoop (r : ℕ → ℕ) : ℕ → (ℕ → ℕ) → ℕ → (ℕ → ℕ) × ℕ
  | 0, h, idx => (h, idx)
  | n + 1, h, idx =>
    sampleLoop r n
      (if r idx < 4096 then Function.update h (r idx) (h (r idx) + 1) else h) (idx + 1)

/-- The level loop of a sweep: for each level in the list, settle (no
histogram effect) and take `SAMPLES_PER_LEVEL` samples. -/
def levelLoop (r : ℕ → ℕ) : List ℕ → (ℕ → ℕ) → ℕ → (ℕ → ℕ) × ℕ
  | [], h, idx => (h, idx)
  | _level :: rest, h, idx =>
    let p := sampleLoop r SAMPLES_PER_LEVEL h idx
    levelLoop r rest p.1 p.2

/-- Embeds `collect_histogram_sweep`: levels 0..4095 ascending or
4095..0 descending. -/
def collect_histogram_sweep (r : ℕ → ℕ) (ascending : Bool) (h : ℕ → ℕ) (idx : ℕ) :
    (ℕ → ℕ) × ℕ :=
  levelLoop r (if ascending then List.range 4096 else (List.range 4096).reverse) h idx

/-- Embeds `collect_histogram`: `memset(histogram, 0, ...)` then
`NUM_SWEEPS` alternating sweeps (`sweep % 2 == 0` ascending). `prior` is
the histogram contents before the call, wiped by the memset. -/
def collect_histogram (r : ℕ → ℕ) (_prior : ℕ → ℕ) : ℕ → ℕ :=
  ((List.range NUM_SWEEPS).foldl
    (fun st sweep => collect_histogram_sweep r (sweep % 2 == 0) st.1 st.2)
    ((fun _ => 0), 0)).1

/-- Number of in-range readings among `n` consecutive stream entries
starting at `idx`. -/
def goodCount (r : ℕ → ℕ) : ℕ → ℕ → ℕ
  | _idx, 0 => 0
  | idx, n + 1 => (if r idx < 4096 then 1 else 0) + goodCount r (idx + 1) n

/-- Number of out-of-range (silently discarded) readings among `n`
consecutive stream entries starting at `idx`. -/
def discardCount (r : ℕ → ℕ) : ℕ → ℕ → ℕ
  | _idx, 0 => 0
  | idx, n + 1 => (if 4096 ≤ r idx then 1 else 0) + discardCount r (idx + 1) n

/-- Total of all 4096 histogram counters. -/
def sumHist (h : ℕ → ℕ) : ℕ := ∑ i ∈ Finset.range 4096, h i

theorem goodCount_add_discardCount (r : ℕ → ℕ) :
    ∀ (n idx : ℕ), goodCount r idx n + discardCount r idx n = n
  | 0, idx => rfl
  | n + 1, idx => by
    rw [goodCount, discardCount]
    have := goodCount_add_discardCount r n (idx + 1)
    by_cases h : r idx < 4096
    · rw [if_pos h, if_neg (by omega)]
      omega
    · rw [if_neg h, if_pos (by omega)]
      omega

theorem goodCount_add (r : ℕ → ℕ) :
    ∀ (a b idx : ℕ), goodCount r idx (a + b) = goodCount r idx a + goodCount r (idx + a) b
  | 0, b, idx => by simp [goodCount]
  | a + 1, b, idx => by
    rw [show a + 1 + b = (a + b) + 1 by ring, goodCount, goodCount,
      goodCount_add r a b (idx + 1)]
    ring_nf

/-- Incrementing one in-range cell adds exactly 1 to the histogram total. -/
theorem sumHist_bump (h : ℕ → ℕ) (c : ℕ) (hc : c < 4096) :
    sumHist (Function.update h c (h c + 1)) = sumHist h + 1 := by
  have hmem : c ∈ Finset.range 4096 := Finset.mem_range.mpr hc
  rw [sumHist, Finset.sum_update_of_mem hmem, sumHist,
    ← Finset.add_sum_erase (Finset.range 4096) h hmem, Finset.erase_eq]
  ring

theorem sampleLoop_spec (r : ℕ → ℕ) :
    ∀ (n : ℕ) (h : ℕ → ℕ) (idx : ℕ),
      (sampleLoop r n h idx).2 = idx + n ∧
      sumHist (sampleLoop r n h idx).1 = sumHist h + goodCount r idx n
  | 0, h, idx => by simp [sampleLoop, goodCount]
  | n + 1, h, idx => by
    rw [sampleLoop, goodCount]
    have ih := sampleLoop_spec r n
      (if r idx < 4096 then Function.update h (r idx) (h (r idx) + 1) else h) (idx + 1)
    refine ⟨by rw [ih.1]; ring, ?_⟩
    rw [ih.2]
    by_cases hrc : r idx < 4096
    · rw [if_pos hrc, if_pos hrc, sumHist_bump h (r idx) hrc]
      ring
    · rw [if_neg hrc, if_neg hrc]
      ring

theorem levelLoop_spec (r : ℕ → ℕ) :
    ∀ (L : List ℕ) (h : ℕ → ℕ) (idx : ℕ),
      (levelLoop r L h idx).2 = idx + L.length * SAMPLES_PER_LEVEL ∧
      sumHist (levelLoop r L h idx).1 =
        sumHist h + goodCount r idx (L.length * SAMPLES_PER_LEVEL)
  | [], h, idx => by simp [levelLoop, goodCount]
  | l :: L, h, idx => by
    rw [levelLoop]
    have hs := sampleLoop_spec r SAMPLES_PER_LEVEL h idx
    have ih := levelLoop_spec r L (sampleLoop r SAMPLES_PER_LEVEL h idx).1
      (sampleLoop r SAMPLES_PER_LEVEL h idx).2
    have hlen : (l :: L).length * SAMPLES_PER_LEVEL =
        SAMPLES_PER_LEVEL + L.length * SAMPLES_PER_LEVEL := by
      simp [List.length_cons]
      ring
    refine ⟨by rw [ih.1, hs.1, hlen]; ring, ?_⟩
    rw [ih.2, hs.2, hs.1, hlen, goodCount_add r SAMPLES_PER_LEVEL _ idx]
    ring

/-- A full sweep (either direction) consumes `4096 * SAMPLES_PER_LEVEL`
readings and adds the in-range ones to the histogram total. -/
theorem collect_histogram_sweep_spec (r : ℕ → ℕ) (asc : Bool) (h : ℕ → ℕ) (idx : ℕ) :
    (collect_histogram_sweep r asc h idx).2 = idx + 4096 * SAMPLES_PER_LEVEL ∧
    sumHist (collect_histogram_sweep r asc h idx).1 =
      sumHist h + goodCount r idx (4096 * SAMPLES_PER_LEVEL) := by
  have hlen : (if asc then List.range 4096 else (List.range 4096).reverse).length = 4096 := by
    cases asc <;> simp
  have := levelLoop_spec r (if asc then List.range 4096 else (List.range 4096).reverse) h idx
  rw [hlen] at this
  exact this

theorem sweepFold_spec (r : ℕ → ℕ) :
    ∀ (L : List ℕ) (h : ℕ → ℕ) (idx : ℕ),
      ((L.foldl (fun st sweep => collect_histogram_sweep r (sweep % 2 == 0) st.1 st.2)
          (h, idx)).2 = idx + L.length * (4096 * SAMPLES_PER_LEVEL)) ∧
      sumHist ((L.foldl (fun st sweep => collect_histogram_sweep r (sweep % 2 == 0) st.1 st.2)
          (h, idx)).1) = sumHist h + goodCount r idx (L.length * (4096 * SAMPLES_PER_LEVEL))
  | [], h, idx => by simp [goodCount]
  | a :: L, h, idx => by
    rw [List.foldl_cons]
    have hsw := collect_histogram_sweep_spec r (a % 2 == 0) h idx
    have ih := sweepFold_spec r L (collect_histogram_sweep r (a % 2 == 0) h idx).1
      (collect_histogram_sweep r (a % 2 == 0) h idx).2
    have hlen : (a :: L).length * (4096 * SAMPLES_PER_LEVEL) =
        4096 * SAMPLES_PER_LEVEL + L.length * (4096 * SAMPLES_PER_LEVEL) := by
      simp [List.length_cons]
      ring
    constructor
    · show ((L.foldl _ ((collect_histogram_sweep r (a % 2 == 0) h idx).1,
        (collect_histogram_sweep r (a % 2 == 0) h idx).2)).2 = _)
      rw [ih.1, hsw.1, hlen]
      ring
    · show sumHist ((L.foldl _ ((collect_histogram_sweep r (a % 2 == 0) h idx).1,
        (collect_histogram_sweep r (a % 2 == 0) h idx).2)).1) = _
      rw [ih.2, hsw.2, hsw.1, hlen, goodCount_add r (4096 * SAMPLES_PER_LEVEL) _ idx]
      ring

/-- C9: `collect_histogram` first zeroes all histogram counters (the
result is independent of the prior histogram contents), and the total of
all counts after a full run equals
`NUM_SWEEPS * 4096 * SAMPLES_PER_LEVEL` minus exactly the silently
discarded out-of-range samples. -/
theorem histogram_conservation (r : ℕ → ℕ) (p1 p2 : ℕ → ℕ) :
    collect_histogram r p1 = collect_histogram r p2 ∧
    sumHist (collect_histogram r p1) +
      discardCount r 0 (NUM_SWEEPS * (4096 * SAMPLES_PER_LEVEL)) =
      NUM_SWEEPS * (4096 * SAMPLES_PER_LEVEL) := by
  refine ⟨rfl, ?_⟩
  have hfold := sweepFold_spec r (List.range NUM_SWEEPS) (fun _ => 0) 0
  have hz : sumHist (fun _ => 0) = 0 := by simp [sumHist]
  rw [collect_histogram, hfold.2, hz, List.length_range]
  rw [Nat.zero_add]
  exact goodCount_add_discardCount r (NUM_SWEEPS * (4096 * SAMPLES_PER_LEVEL)) 0

/-! ## Calibration record persistence

Embeds `save_calibration` / `load_calibration` (part_001 lines 276-330) at
the byte level.  The C code writes the raw memory image of `cal_data`
(8200 bytes on the little-endian RP2040: 4-byte magic, 4096 signed 16-bit
corrections, two 16-bit range words, no padding) and reads a file back
*directly into* `cal_data` before validating size and magic.  The
filesystem is the external collaborator: a load attempt is modelled by the
byte list actually read (empty when mount/open failed, short on a short
read). -/

/-- `sizeof(CalibrationData)` = 4 + 4096*2 + 2 + 2 bytes. -/
def CAL_SIZE : ℕ := 8200

/-- Little-endian bytes of a `uint16_t`. -/
def encodeU16 (n : ℕ) : List ℕ := [n % 256, n / 256 % 256]

/-- Little-endian bytes of a `uint32_t`. -/
def encodeU32 (n : ℕ) : List ℕ :=
  [n % 256, n / 256 % 256, n / 65536 % 256, n / 16777216 % 256]

/-- Little-endian bytes of an `int16_t`, two's complement. -/
def encodeI16 (z : ℤ) : List ℕ := encodeU16 (z % 65536).toNat

/-- Bytes of a sequence of `int16_t` values. -/
def encodeI16s : List ℤ → List ℕ
  | [] => []
  | z :: zs => encodeI16 z ++ encodeI16s zs

/-- The memory image of `cal_data` that `f.write((uint8_t*)&cal_data, sizeof(cal_data))`
emits: magic, the 4096 correction entries, `adc_min`, `adc_max`. -/
def encodeCal (c : CalibrationData) : List ℕ :=
  encodeU32 c.magic ++ encodeI16s ((List.range 4096).map c.correction) ++
  encodeU16 c.adc_min ++ encodeU16 c.adc_max

/-- Reading a `uint16_t` from a byte stream (0 on exhausted input, which
never happens on the full-size images considered here). -/
def decodeU16 : List ℕ → ℕ × List ℕ
  | b0 :: b1 :: rest => (b0 % 256 + 256 * (b1 % 256), rest)
  | _ => (0, [])

/-- Reading a `uint32_t` from a byte stream. -/
def decodeU32 : List ℕ → ℕ × List ℕ
  | b0 :: b1 :: b2 :: b3 :: rest =>
    (b0 % 256 + 256 * (b1 % 256) + 65536 * (b2 % 256) + 16777216 * (b3 % 256), rest)
  | _ => (0, [])

/-- Reading an `int16_t` from a byte stream. -/
def decodeI16 (l : List ℕ) : ℤ × List ℕ :=
  (toInt16 ((decodeU16 l).1 : ℤ), (decodeU16 l).2)

/-- Reading `n` consecutive `int16_t` values (unchanged input on an
exhausted stream, which never happens on the full-size images here). -/
def decodeI16s : ℕ → List ℕ → List ℤ × List ℕ
  | 0, l => ([], l)
  | n + 1, b0 :: b1 :: rest =>
    let p := decodeI16 (b0 :: b1 :: rest)
    let q := decodeI16s n p.2
    (p.1 :: q.1, q.2)
  | _ + 1, l => ([], l)

/-- Reinterpreting a byte image as a `CalibrationData` (what landing the
bytes in `&cal_data` means). -/
def decodeCal (l : List ℕ) : CalibrationData :=
  let m := decodeU32 l
  let cs := decodeI16s 4096 m.2
  let mn := decodeU16 cs.2
  let mx := decodeU16 mn.2
  ⟨m.1, fun i => cs.1.getD i 0, mn.1, mx.1⟩

/-- Embeds the binary write of `save_calibration`: the bytes of `cal_data`. -/
def save_calibration (c : CalibrationData) : List ℕ := encodeCal c

/-- Embeds `load_calibration`: `f.read((uint8_t*)&cal_data, sizeof(cal_data))`
copies the bytes actually read over the front of `cal_data`'s image (a
short read leaves the remaining bytes unchanged), and the function returns
true iff the read was full-size and the (possibly overwritten) magic
matches `0xCA11B8ED`. -/
def load_calibration (old : CalibrationData) (readBytes : List ℕ) : CalibrationData × Bool :=
  let image := readBytes ++ (encodeCal old).drop readBytes.length
  let newData := decodeCal image
  (newData, readBytes.length == CAL_SIZE && newData.magic == 0xCA11B8ED)

theorem decodeCal_magic (l : List ℕ) : (decodeCal l).magic = (decodeU32 l).1 := rfl

theorem decodeCal_correction (l : List ℕ) :
    (decodeCal l).correction = fun i => ((decodeI16s 4096 (decodeU32 l).2).1).getD i 0 := rfl

theorem decodeCal_adc_min (l : List ℕ) :
    (decodeCal l).adc_min = (decodeU16 (decodeI16s 4096 (decodeU32 l).2).2).1 := rfl

theorem decodeCal_adc_max (l : List ℕ) :
    (decodeCal l).adc_max =
    (decodeU16 (decodeU16 (decodeI16s 4096 (decodeU32 l).2).2).2).1 := rfl

theorem encodeI16s_length : ∀ (zs : List ℤ), (encodeI16s zs).length = 2 * zs.length
  | [] => rfl
  | z :: zs => by
    rw [encodeI16s, List.length_append, encodeI16s_length zs]
    simp [encodeI16, encodeU16]
    ring

theorem encodeCal_length (c : CalibrationData) : (encodeCal c).length = CAL_SIZE := by
  rw [encodeCal]
  simp [encodeU32, encodeU16, encodeI16s_length, CAL_SIZE]

theorem decodeU16_encodeU16 (n : ℕ) (rest : List ℕ) :
    decodeU16 (encodeU16 n ++ rest) = (n % 65536, rest) := by
  rw [encodeU16]
  show (n % 256 % 256 + 256 * (n / 256 % 256 % 256), rest) = (n % 65536, rest)
  have : n % 256 % 256 + 256 * (n / 256 % 256 % 256) = n % 65536 := by omega
  rw [this]

theorem decodeU32_encodeU32 (n : ℕ) (rest : List ℕ) :
    decodeU32 (encodeU32 n ++ rest) = (n % 4294967296, rest) := by
  rw [encodeU32]
  show (n % 256 % 256 + 256 * (n / 256 % 256 % 256) + 65536 * (n / 65536 % 256 % 256) +
      16777216 * (n / 16777216 % 256 % 256), rest) = (n % 4294967296, rest)
  have : n % 256 % 256 + 256 * (n / 256 % 256 % 256) + 65536 * (n / 65536 % 256 % 256) +
      16777216 * (n / 16777216 % 256 % 256) = n % 4294967296 := by omega
  rw [this]

theorem decodeI16_encodeI16 (z : ℤ) (rest : List ℕ) (hlo : -32768 ≤ z) (hhi : z < 32768) :
    decodeI16 (encodeI16 z ++ rest) = (z, rest) := by
  rw [encodeI16, decodeI16, decodeU16_encodeU16]
  have h1 : ((z % 65536).toNat : ℤ) = z % 65536 :=
    Int.toNat_of_nonneg (Int.emod_nonneg z (by norm_num))
  have h2 : (z % 65536).toNat % 65536 = (z % 65536).toNat := by
    apply Nat.mod_eq_of_lt
    have : z % 65536 < 65536 := Int.emod_lt_of_pos z (by norm_num)
    omega
  rw [h2]
  show (toInt16 ((z % 65536).toNat : ℤ), rest) = (z, rest)
  rw [h1, toInt16]
  have : (z % 65536 + 32768) % 65536 - 32768 = z := by omega
  rw [this]

/-- One parsing step on an explicitly byte-headed stream. -/
theorem decodeI16s_succ (n b0 b1 : ℕ) (rest : List ℕ) :
    decodeI16s (n + 1) (b0 :: b1 :: rest) =
    ((decodeI16 (b0 :: b1 :: rest)).1 :: (decodeI16s n (decodeI16 (b0 :: b1 :: rest)).2).1,
     (decodeI16s n (decodeI16 (b0 :: b1 :: rest)).2).2) := rfl

/-- One parsing step on an encoded `int16_t` in range. -/
theorem decodeI16s_succ_append (n : ℕ) (z : ℤ) (rest' : List ℕ)
    (hlo : -32768 ≤ z) (hhi : z < 32768) :
    decodeI16s (n + 1) (encodeI16 z ++ rest') =
    (z :: (decodeI16s n rest').1, (decodeI16s n rest').2) := by
  have hc : encodeI16 z ++ rest' =
      ((z % 65536).toNat % 256) :: ((z % 65536).toNat / 256 % 256) :: rest' := by
    simp [encodeI16, encodeU16]
  rw [hc, decodeI16s_succ, ← hc, decodeI16_encodeI16 z rest' hlo hhi]

theorem decodeI16s_encodeI16s :
    ∀ (zs : List ℤ) (rest : List ℕ),
      (∀ z ∈ zs, -32768 ≤ z ∧ z < 32768) →
      decodeI16s zs.length (encodeI16s zs ++ rest) = (zs, rest)
  | [], rest, _ => rfl
  | z :: zs, rest, hb => by
    have hz := hb z (List.mem_cons_self _ _)
    rw [List.length_cons, encodeI16s, List.append_assoc,
      decodeI16s_succ_append zs.length z _ hz.1 hz.2]
    rw [decodeI16s_encodeI16s zs rest (fun w hw => hb w (List.mem_cons_of_mem _ hw))]

/-- Entry `i < n` of `(range n).map f`, with default. -/
theorem getD_map_range (f : ℕ → ℤ) (n i : ℕ) (hi : i < n) :
    ((List.range n).map f).getD i 0 = f i := by
  rw [List.getD_eq_getElem?_getD, List.getElem?_map, List.getElem?_range hi]
  rfl

/-- Decoding the encoded image of a well-formed record recovers every
field. -/
theorem decodeCal_encodeCal (c : CalibrationData)
    (hmagic : c.magic < 4294967296)
    (hcorr : ∀ i, i < 4096 → -32768 ≤ c.correction i ∧ c.correction i < 32768)
    (hmin : c.adc_min < 65536) (hmax : c.adc_max < 65536) :
    (decodeCal (encodeCal c)).magic = c.magic ∧
    (∀ i, i < 4096 → (decodeCal (encodeCal c)).correction i = c.correction i) ∧
    (decodeCal (encodeCal c)).adc_min = c.adc_min ∧
    (decodeCal (encodeCal c)).adc_max = c.adc_max := by
  have hcs : ∀ z ∈ (List.range 4096).map c.correction, -32768 ≤ z ∧ z < 32768 := by
    intro z hz
    obtain ⟨i, hi, rfl⟩ := List.mem_map.1 hz
    exact hcorr i (List.mem_range.1 hi)
  have hlen : ((List.range 4096).map c.correction).length = 4096 := by simp
  have hu32 : decodeU32 (encodeCal c) =
      (c.magic, encodeI16s ((List.range 4096).map c.correction) ++
        (encodeU16 c.adc_min ++ encodeU16 c.adc_max)) := by
    rw [encodeCal, List.append_assoc, List.append_assoc, decodeU32_encodeU32,
      Nat.mod_eq_of_lt hmagic]
  have hi16s : decodeI16s 4096 (encodeI16s ((List.range 4096).map c.correction) ++
      (encodeU16 c.adc_min ++ encodeU16 c.adc_max)) =
      ((List.range 4096).map c.correction, encodeU16 c.adc_min ++ encodeU16 c.adc_max) := by
    have hlen' : (4096 : ℕ) = ((List.range 4096).map c.correction).length := hlen.symm
    nth_rewrite 1 [hlen']
    exact decodeI16s_encodeI16s _ _ hcs
  have hmn : decodeU16 (encodeU16 c.adc_min ++ encodeU16 c.adc_max) =
      (c.adc_min, encodeU16 c.adc_max) := by
    rw [decodeU16_encodeU16, Nat.mod_eq_of_lt hmin]
  have hmx : decodeU16 (encodeU16 c.adc_max) = (c.adc_max, []) := by
    rw [← List.append_nil (encodeU16 c.adc_max), decodeU16_encodeU16, Nat.mod_eq_of_lt hmax]
  refine ⟨?_, ?_, ?_, ?_⟩
  · rw [decodeCal_magic, hu32]
  · intro i hi
    rw [decodeCal_correction, hu32]
    show (decodeI16s 4096 (encodeI16s ((List.range 4096).map c.correction) ++
      (encodeU16 c.adc_min ++ encodeU16 c.adc_max))).1.getD i 0 = c.correction i
    rw [hi16s]
    exact getD_map_range c.correction 4096 i hi
  · rw [decodeCal_adc_min, hu32, hi16s, hmn]
  · rw [decodeCal_adc_max, hu32, hi16s, hmn, hmx]

/-- C8: serializing a calibration record with `save_calibration` and
deserializing it with `load_calibration` reproduces the identical magic,
correction table, and range. -/
theorem save_load_round_trip (old c : CalibrationData)
    (hmagic : c.magic < 4294967296)
    (hcorr : ∀ i, i < 4096 → -32768 ≤ c.correction i ∧ c.correction i < 32768)
    (hmin : c.adc_min < 65536) (hmax : c.adc_max < 65536) :
    (load_calibration old (save_calibration c)).1.magic = c.magic ∧
    (∀ i, i < 4096 →
      (load_calibration old (save_calibration c)).1.correction i = c.correction i) ∧
    (load_calibration old (save_calibration c)).1.adc_min = c.adc_min ∧
    (load_calibration old (save_calibration c)).1.adc_max = c.adc_max := by
  have hload1 : (load_calibration old (save_calibration c)).1 =
      decodeCal (save_calibration c ++
        (encodeCal old).drop (save_calibration c).length) := rfl
  have himg : save_calibration c ++
      (encodeCal old).drop (save_calibration c).length = encodeCal c := by
    rw [save_calibration, encodeCal_length c,
      show CAL_SIZE = (encodeCal old).length from (encodeCal_length old).symm,
      List.drop_length, List.append_nil]
  rw [hload1, himg]
  exact decodeCal_encodeCal c hmagic hcorr hmin hmax

/-- A concrete well-formed record for the round-trip witness. -/
def calSample : CalibrationData :=
  ⟨0xCA11B8ED, fun i => if i = 5 then -7 else 3, 17, 4000⟩

/-- The all-zero default record (the power-on contents of `cal_data`). -/
def calZero : CalibrationData := ⟨0, fun _ => 0, 0, 0⟩

/-- Witness for C8 on `calSample`. -/
theorem save_load_round_trip_witness :
    (load_calibration calZero (save_calibration calSample)).1.magic = calSample.magic ∧
    (∀ i, i < 4096 →
      (load_calibration calZero (save_calibration calSample)).1.correction i =
        calSample.correction i) ∧
    (load_calibration calZero (save_calibration calSample)).1.adc_min = calSample.adc_min ∧
    (load_calibration calZero (save_calibration calSample)).1.adc_max = calSample.adc_max :=
  save_load_round_trip calZero calSample (by norm_num [calSample])
    (fun i _ => by
      simp only [calSample]
      by_cases h : i = 5
      · rw [if_pos h]; norm_num
      · rw [if_neg h]; norm_num)
    (by norm_num [calSample]) (by norm_num [calSample])

/-- The magic read by `decodeU32` only depends on the first four bytes. -/
theorem decodeU32_fst_append (b rest : List ℕ) (hb : 4 ≤ b.length) :
    (decodeU32 (b ++ rest)).1 = (decodeU32 b).1 := by
  rcases b with _ | ⟨b0, b⟩
  · simp at hb
  rcases b with _ | ⟨b1, b⟩
  · simp at hb
  rcases b with _ | ⟨b2, b⟩
  · simp at hb
  rcases b with _ | ⟨b3, b⟩
  · simp at hb
  rfl

/-- `load_calibration` reports success iff the read was full-size and the
first four bytes read decode to the magic sentinel (shared helper). -/
theorem load_calibration_ok_iff (old : CalibrationData) (bytes : List ℕ) :
    (load_calibration old bytes).2 = true ↔
    (bytes.length = CAL_SIZE ∧ (decodeU32 bytes).1 = 0xCA11B8ED) := by
  have h2 : (load_calibration old bytes).2 =
      ((bytes.length == CAL_SIZE) &&
        ((decodeCal (bytes ++ (encodeCal old).drop bytes.length)).magic ==
          0xCA11B8ED)) := rfl
  have hlen4 : bytes.length = CAL_SIZE → 4 ≤ bytes.length := by
    intro h
    rw [h, CAL_SIZE]
    omega
  rw [h2, Bool.and_eq_true, beq_iff_eq, beq_iff_eq]
  constructor
  · rintro ⟨h1, hm⟩
    rw [decodeCal_magic, decodeU32_fst_append bytes _ (hlen4 h1)] at hm
    exact ⟨h1, hm⟩
  · rintro ⟨h1, hm⟩
    refine ⟨h1, ?_⟩
    rw [decodeCal_magic, decodeU32_fst_append bytes _ (hlen4 h1)]
    exact hm

/-- C7: `load_calibration` returns true iff the number of bytes read is the
full record size and the magic field of the read data equals `0xCA11B8ED`;
any short read or wrong magic is reported as no valid calibration. -/
theorem load_validation (old : CalibrationData) (bytes : List ℕ) :
    (load_calibration old bytes).2 = true ↔
    (bytes.length = CAL_SIZE ∧ (decodeU32 bytes).1 = 0xCA11B8ED) :=
  load_calibration_ok_iff old bytes

/-- C2 (amended): a failed load (short read or magic mismatch) returns
false; the failure is signalled only through the return value. -/
theorem load_failure_reports_invalid (old : CalibrationData) (bytes : List ℕ)
    (h : bytes.length ≠ CAL_SIZE ∨ (decodeU32 bytes).1 ≠ 0xCA11B8ED) :
    (load_calibration old bytes).2 = false := by
  rcases Bool.eq_false_or_eq_true (load_calibration old bytes).2 with ht | hf
  case inr => exact hf
  obtain ⟨h1, hm⟩ := (load_calibration_ok_iff old bytes).1 ht
  rcases h with h | h
  · exact absurd h1 h
  · exact absurd hm h

/-- Witness for the amended C2: a failed mount/open reads nothing and the
load reports no valid calibration. -/
theorem load_failure_reports_invalid_witness :
    (load_calibration calZero []).2 = false :=
  load_failure_reports_invalid calZero [] (Or.inl (by norm_num [CAL_SIZE]))

/-- The six bytes of a short read: a truncated record whose fifth and
sixth bytes (the first correction entry) are `0xFF 0xFF`. -/
def shortRead : List ℕ := [0, 0, 0, 0, 255, 255]

/-- C2 (counterexample): a short read is reported as no valid calibration
(returns false), but the bytes read have already been copied over
`cal_data`: the first correction entry of the all-zero prior table has
become -1, so the prior in-memory Correction Table is NOT left unchanged. -/
theorem load_short_read_overwrites :
    (load_calibration calZero shortRead).2 = false ∧
    calZero.correction 0 = 0 ∧
    (load_calibration calZero shortRead).1.correction 0 = -1 ∧
    (load_calibration calZero shortRead).1.correction ≠ calZero.correction := by
  have hsnd : (load_calibration calZero shortRead).2 = false := by
    have h2 : (load_calibration calZero shortRead).2 =
        ((shortRead.length == CAL_SIZE) &&
          ((decodeCal (shortRead ++ (encodeCal calZero).drop shortRead.length)).magic ==
            0xCA11B8ED)) := rfl
    have hne : (shortRead.length == CAL_SIZE) = false := by decide
    rw [h2, hne, Bool.false_and]
  have hfst : (load_calibration calZero shortRead).1 =
      decodeCal (shortRead ++ (encodeCal calZero).drop shortRead.length) := rfl
  have himg : shortRead ++ (encodeCal calZero).drop shortRead.length =
      0 :: 0 :: 0 :: 0 :: 255 :: 255 :: (encodeCal calZero).drop shortRead.length := rfl
  have hu32 : decodeU32
      (0 :: 0 :: 0 :: 0 :: 255 :: 255 :: (encodeCal calZero).drop shortRead.length) =
      (0, 255 :: 255 :: (encodeCal calZero).drop shortRead.length) := rfl
  have hcorr0 : (load_calibration calZero shortRead).1.correction 0 = -1 := by
    rw [hfst, decodeCal_correction, himg, hu32]
    show (decodeI16s 4096
      (255 :: 255 :: (encodeCal calZero).drop shortRead.length)).1.getD 0 0 = -1
    have h4096 : (4096 : ℕ) = 4095 + 1 := rfl
    rw [h4096, decodeI16s_succ, List.getD_cons_zero]
    decide
  refine ⟨hsnd, rfl, hcorr0, fun hEq => ?_⟩
  have h0 := congrFun hEq 0
  rw [hcorr0] at h0
  have : (0 : ℤ) = calZero.correction 0 := rfl
  rw [← this] at h0
  norm_num at h0

/-! ## Boundary smoother

Embeds `smooth_correction_table` (part_000 lines 21-50).  For each of the
four bit-9 boundaries it reads the two anchor values *before* modifying,
then overwrites every entry strictly between the anchors with the linear
interpolation `left_val + (int16_t)(t * (right_val - left_val))`,
`t = (i - left_idx) / (right_idx - left_idx)` computed in `float`
(modelled with exact rationals; the `(int16_t)` cast truncates toward
zero).  The natural subtraction `center - 16 - 1` realises the
`if (left_idx < 0) left_idx = 0` clamp, and `min (center + 16) 4095` the
`if (right_idx > 4095) right_idx = 4095` clamp. -/

/-- Truncation toward zero of a rational: the C float-to-int cast. -/
def qtrunc (q : ℚ) : ℤ := if q < 0 then -⌊-q⌋ else ⌊q⌋

/-- One boundary pass: anchors at `center - 17` and `min (center+16) 4095`
are read first; entries strictly between them are replaced by the
interpolation, all other entries are untouched. -/
def smoothRegion (center : ℕ) (tbl : ℕ → ℤ) : ℕ → ℤ :=
  let left_idx : ℕ := center - 16 - 1
  let right_idx : ℕ := min (center + 16) 4095
  let left_val : ℤ := tbl left_idx
  let right_val : ℤ := tbl right_idx
  fun i =>
    if left_idx < i ∧ i < right_idx then
      toInt16 (left_val + toInt16 (qtrunc
        ((((i - left_idx : ℕ) : ℚ) / ((right_idx - left_idx : ℕ) : ℚ)) *
          ((right_val : ℚ) - (left_val : ℚ)))))
    else tbl i

/-- Embeds `smooth_correction_table`: the four boundary passes in order. -/
def smooth_correction_table (tbl : ℕ → ℤ) : ℕ → ℤ :=
  [512, 1536, 2560, 3584].foldl (fun t c => smoothRegion c t) tbl

theorem smooth_correction_table_eq (tbl : ℕ → ℤ) :
    smooth_correction_table tbl =
    smoothRegion 3584 (smoothRegion 2560 (smoothRegion 1536 (smoothRegion 512 tbl))) := rfl

/-- A pass leaves every entry outside its open interpolation window
untouched. -/
theorem smoothRegion_out (c : ℕ) (tbl : ℕ → ℤ) (i : ℕ)
    (h : ¬(c - 16 - 1 < i ∧ i < min (c + 16) 4095)) :
    smoothRegion c tbl i = tbl i := by
  simp only [smoothRegion]
  rw [if_neg h]

/-- Inside the window a pass depends only on the two anchor values. -/
theorem smoothRegion_congr (c : ℕ) (t1 t2 : ℕ → ℤ)
    (hl : t1 (c - 16 - 1) = t2 (c - 16 - 1))
    (hr : t1 (min (c + 16) 4095) = t2 (min (c + 16) 4095)) (i : ℕ)
    (hin : c - 16 - 1 < i ∧ i < min (c + 16) 4095) :
    smoothRegion c t1 i = smoothRegion c t2 i := by
  simp only [smoothRegion]
  rw [if_pos hin, if_pos hin, hl, hr]

/-- Closed form of a full smoothing pass: the four windows are disjoint
and none contains an anchor, so each smoothed entry is the interpolation
of the ORIGINAL anchors of its own window, and everything else is
untouched. -/
theorem smooth_spec (tbl : ℕ → ℤ) (i : ℕ) :
    smooth_correction_table tbl i =
    if 495 < i ∧ i < 528 then smoothRegion 512 tbl i
    else if 1519 < i ∧ i < 1552 then smoothRegion 1536 tbl i
    else if 2543 < i ∧ i < 2576 then smoothRegion 2560 tbl i
    else if 3567 < i ∧ i < 3600 then smoothRegion 3584 tbl i
    else tbl i := by
  rw [smooth_correction_table_eq]
  by_cases h1 : 495 < i ∧ i < 528
  · rw [if_pos h1, smoothRegion_out 3584 _ i (by omega), smoothRegion_out 2560 _ i (by omega),
      smoothRegion_out 1536 _ i (by omega)]
  · rw [if_neg h1]
    by_cases h2 : 1519 < i ∧ i < 1552
    · rw [if_pos h2, smoothRegion_out 3584 _ i (by omega), smoothRegion_out 2560 _ i (by omega)]
      exact smoothRegion_congr 1536 (smoothRegion 512 tbl) tbl
        (smoothRegion_out 512 tbl (1536 - 16 - 1) (by omega))
        (smoothRegion_out 512 tbl (min (1536 + 16) 4095) (by omega)) i (by omega)
    · rw [if_neg h2]
      by_cases h3 : 2543 < i ∧ i < 2576
      · rw [if_pos h3, smoothRegion_out 3584 _ i (by omega)]
        exact smoothRegion_congr 2560 (smoothRegion 1536 (smoothRegion 512 tbl)) tbl
          ((smoothRegion_out 1536 _ (2560 - 16 - 1) (by omega)).trans
            (smoothRegion_out 512 tbl (2560 - 16 - 1) (by omega)))
          ((smoothRegion_out 1536 _ (min (2560 + 16) 4095) (by omega)).trans
            (smoothRegion_out 512 tbl (min (2560 + 16) 4095) (by omega))) i (by omega)
      · rw [if_neg h3]
        by_cases h4 : 3567 < i ∧ i < 3600
        · rw [if_pos h4]
          exact smoothRegion_congr 3584
            (smoothRegion 2560 (smoothRegion 1536 (smoothRegion 512 tbl))) tbl
            (((smoothRegion_out 2560 _ (3584 - 16 - 1) (by omega)).trans
              (smoothRegion_out 1536 _ (3584 - 16 - 1) (by omega))).trans
              (smoothRegion_out 512 tbl (3584 - 16 - 1) (by omega)))
            (((smoothRegion_out 2560 _ (min (3584 + 16) 4095) (by omega)).trans
              (smoothRegion_out 1536 _ (min (3584 + 16) 4095) (by omega))).trans
              (smoothRegion_out 512 tbl (min (3584 + 16) 4095) (by omega))) i (by omega)
        · rw [if_neg h4, smoothRegion_out 3584 _ i (by omega),
            smoothRegion_out 2560 _ i (by omega), smoothRegion_out 1536 _ i (by omega),
            smoothRegion_out 512 tbl i (by omega)]

/-- Entries outside all four windows, in particular all eight anchors, are
unmodified by a smoothing pass. -/
theorem smooth_preserves_outside (tbl : ℕ → ℤ) (i : ℕ)
    (h1 : ¬(495 < i ∧ i < 528)) (h2 : ¬(1519 < i ∧ i < 1552))
    (h3 : ¬(2543 < i ∧ i < 2576)) (h4 : ¬(3567 < i ∧ i < 3600)) :
    smooth_correction_table tbl i = tbl i := by
  rw [smooth_spec tbl i, if_neg h1, if_neg h2, if_neg h3, if_neg h4]

/-- C4: running `smooth_correction_table` twice produces the same table as
running it once, and the anchor entries read before interpolation
(`495, 528, 1519, 1552, 2543, 2576, 3567, 3600`) are unmodified by a
pass. -/
theorem smoothing_idempotent (tbl : ℕ → ℤ) :
    smooth_correction_table (smooth_correction_table tbl) = smooth_correction_table tbl ∧
    (∀ a, a ∈ [495, 528, 1519, 1552, 2543, 2576, 3567, 3600] →
      smooth_correction_table tbl a = tbl a) := by
  constructor
  · funext i
    rw [smooth_spec (smooth_correction_table tbl) i, smooth_spec tbl i]
    by_cases h1 : 495 < i ∧ i < 528
    · rw [if_pos h1, if_pos h1]
      exact smoothRegion_congr 512 (smooth_correction_table tbl) tbl
        (smooth_preserves_outside tbl (512 - 16 - 1)
          (by omega) (by omega) (by omega) (by omega))
        (smooth_preserves_outside tbl (min (512 + 16) 4095)
          (by omega) (by omega) (by omega) (by omega)) i (by omega)
    · rw [if_neg h1, if_neg h1]
      by_cases h2 : 1519 < i ∧ i < 1552
      · rw [if_pos h2, if_pos h2]
        exact smoothRegion_congr 1536 (smooth_correction_table tbl) tbl
          (smooth_preserves_outside tbl (1536 - 16 - 1)
            (by omega) (by omega) (by omega) (by omega))
          (smooth_preserves_outside tbl (min (1536 + 16) 4095)
            (by omega) (by omega) (by omega) (by omega)) i (by omega)
      · rw [if_neg h2, if_neg h2]
        by_cases h3 : 2543 < i ∧ i < 2576
        · rw [if_pos h3, if_pos h3]
          exact smoothRegion_congr 2560 (smooth_correction_table tbl) tbl
            (smooth_preserves_outside tbl (2560 - 16 - 1)
              (by omega) (by omega) (by omega) (by omega))
            (smooth_preserves_outside tbl (min (2560 + 16) 4095)
              (by omega) (by omega) (by omega) (by omega)) i (by omega)
        · rw [if_neg h3, if_neg h3]
          by_cases h4 : 3567 < i ∧ i < 3600
          · rw [if_pos h4, if_pos h4]
            exact smoothRegion_congr 3584 (smooth_correction_table tbl) tbl
              (smooth_preserves_outside tbl (3584 - 16 - 1)
                (by omega) (by omega) (by omega) (by omega))
              (smooth_preserves_outside tbl (min (3584 + 16) 4095)
                (by omega) (by omega) (by omega) (by omega)) i (by omega)
          · rw [if_neg h4, if_neg h4]
  · intro a ha
    fin_cases ha <;>
      exact smooth_preserves_outside tbl _ (by omega) (by omega) (by omega) (by omega)

/-- Witness for C4 at a concrete table and the first anchor. -/
theorem smoothing_idempotent_witness :
    smooth_correction_table (fun i => (i : ℤ)) 495 = 495 :=
  (smoothing_idempotent (fun i => (i : ℤ))).2 495 (by norm_num)
